import Mathlib

/-!
Verification of the YAML document merge engine of `pires-cli`
(package `fileeditor`, functions `MergeRootDocumentNodes`,
`ConvertMappingNodeToMap`, `MergeMappingPreservingKeyOrder`,
`MergeValuesForKey`, `MergeArraysUniquely`).

The Go `yaml.Node` struct is embedded as an inductive tree carrying the
node kind, tag, value and child list.  A Go `map[string]*yaml.Node` is
embedded as an association list of its entries; the list order stands for
the runtime's (unspecified, run-varying) iteration order, so two lists
that are permutations of each other with the same key set model the same
Go map value observed in two different runs.

Serialization of a single node (`yaml.NewEncoder(...).Encode(item)`) is
an external collaborator of the engine; it is embedded as a parameter
`ser : Node → Option String`, where `none` models an encoding failure.
-/

set_option autoImplicit false

namespace PiresCli

/-- The node kinds of `yaml.Node` (`gopkg.in/yaml.v3`) used by the code. -/
inductive Kind where
  | documentNode
  | sequenceNode
  | mappingNode
  | scalarNode
  | aliasNode
  deriving DecidableEq, Repr

/-- Embedding of `yaml.Node`: kind, tag, value, and the child list
(`Content`).  Mapping nodes store alternating key/value children, as in
`gopkg.in/yaml.v3`. -/
inductive Node where
  | mk (kind : Kind) (tag : String) (value : String) (content : List Node)

/-- The `Kind` field of a node. -/
def Node.kind : Node → Kind
  | .mk k _ _ _ => k

/-- The `Tag` field of a node. -/
def Node.tag : Node → String
  | .mk _ t _ _ => t

/-- The `Value` field of a node. -/
def Node.value : Node → String
  | .mk _ _ v _ => v

/-- The `Content` field of a node. -/
def Node.content : Node → List Node
  | .mk _ _ _ c => c

/-- Embedding of `map[string]*yaml.Node`: an association list of entries,
whose list order models the map's iteration order. -/
abbrev GoMap := List (String × Node)

/-- The keys of an embedded Go map, in iteration order. -/
def mapKeys (m : GoMap) : List String :=
  m.map Prod.fst

/-- Go map indexing `m[key]`: the value stored at `key`, if any. -/
def mapFind? : GoMap → String → Option Node
  | [], _ => none
  | (k, v) :: rest, key => if k = key then some v else mapFind? rest key

/-- Go map assignment `m[key] = value`: overwrite the entry if the key is
present, otherwise add a new entry. -/
def mapInsert (m : GoMap) (key : String) (value : Node) : GoMap :=
  if (mapFind? m key).isSome then
    m.map (fun p => if p.1 = key then (key, value) else p)
  else
    m ++ [(key, value)]

/-- The loop body of `ConvertMappingNodeToMap`: walk the content two nodes
at a time, storing each complete key/value pair; on a trailing key with no
value, log a warning and break (the accumulated map is returned). -/
def convertPairs : List Node → GoMap → GoMap
  | [], acc => acc
  | [_], acc => acc
  | keyNode :: valueNode :: rest, acc =>
      convertPairs rest (mapInsert acc keyNode.value valueNode)

/-- `ConvertMappingNodeToMap` (src/unnamed/part_002, lines 427-448): build
a key-to-node lookup from a YAML mapping node; a node of any other kind
yields the empty lookup. -/
def ConvertMappingNodeToMap (mappingNode : Node) : GoMap :=
  if mappingNode.kind ≠ Kind.mappingNode then []
  else convertPairs mappingNode.content []

/-- The state built up by `MergeArraysUniquely`: the content of the merged
sequence node, and the set `seenSerializedValues` (as a list, membership
being what the Go map of booleans records). -/
abbrev ArrState := List Node × List String

/-- The closure `appendIfNotSeen` of `MergeArraysUniquely`: serialize the
item with the external encoder; on failure log an error and return
(dropping the item); otherwise append the item unless its serialized form
was already appended. -/
def appendIfNotSeen (ser : Node → Option String) (st : ArrState) (item : Node) : ArrState :=
  match ser item with
  | none => st
  | some serialized =>
      if serialized ∈ st.2 then st
      else (st.1 ++ [item], serialized :: st.2)

/-- `MergeArraysUniquely` (src/unnamed/part_002, lines 518-553): merge two
YAML sequence nodes, appending items of `array1` then of `array2`,
skipping items whose serialized form was already appended. -/
def MergeArraysUniquely (ser : Node → Option String) (array1 array2 : Node) : Node :=
  let st1 := array1.content.foldl (appendIfNotSeen ser) ([], [])
  let st2 := array2.content.foldl (appendIfNotSeen ser) st1
  Node.mk Kind.sequenceNode "" "" st2.1

/-- `MergeValuesForKey` (src/unnamed/part_002, lines 509-515): merge two
sequence values via `MergeArraysUniquely`; in every other case the second
value overrides the first. -/
def MergeValuesForKey (ser : Node → Option String) (key : String)
    (value1 value2 : Node) : Node :=
  if value1.kind = Kind.sequenceNode ∧ value2.kind = Kind.sequenceNode then
    MergeArraysUniquely ser value1 value2
  else
    value2

/-- The state built up by `MergeMappingPreservingKeyOrder`: the content of
the merged mapping node, and the `seenKeys` set (as a list, membership
being what the Go map of booleans records). -/
abbrev MapState := List Node × List String

/-- The closure `addKeyValue` of `MergeMappingPreservingKeyOrder`: append
a fresh `!!str` scalar key node and the value to the merged content, and
mark the key as seen. -/
def addKeyValue (st : MapState) (key : String) (value : Node) : MapState :=
  (st.1 ++ [Node.mk Kind.scalarNode "!!str" key [], value], key :: st.2)

/-- The first loop of `MergeMappingPreservingKeyOrder`: for each key of
`preferredKeyOrder` in order, emit the merged value if the key is in both
maps, the present value if it is in exactly one, and nothing otherwise. -/
def policyLoop (ser : Node → Option String) (primaryMap secondaryMap : GoMap) :
    List String → MapState → MapState
  | [], st => st
  | key :: rest, st =>
      match mapFind? primaryMap key, mapFind? secondaryMap key with
      | some node1, some node2 =>
          policyLoop ser primaryMap secondaryMap rest
            (addKeyValue st key (MergeValuesForKey ser key node1 node2))
      | some node1, none =>
          policyLoop ser primaryMap secondaryMap rest (addKeyValue st key node1)
      | none, some node2 =>
          policyLoop ser primaryMap secondaryMap rest (addKeyValue st key node2)
      | none, none =>
          policyLoop ser primaryMap secondaryMap rest st

/-- The two trailing loops of `MergeMappingPreservingKeyOrder`: range over
a map (in its iteration order) and emit every key not yet seen. -/
def addRemaining : GoMap → MapState → MapState
  | [], st => st
  | (key, node) :: rest, st =>
      addRemaining rest (if key ∈ st.2 then st else addKeyValue st key node)

/-- The body of `MergeMappingPreservingKeyOrder` (src/unnamed/part_002,
lines 451-506) with the package-level constant `preferredKeyOrder` made a
parameter: run the policy loop, then append the keys of the primary map
not yet seen, then those of the secondary map not yet seen. -/
def MergeMappingPreservingKeyOrderWith (ser : Node → Option String)
    (preferredKeyOrder : List String) (primaryMap secondaryMap : GoMap) : Node :=
  let st1 := policyLoop ser primaryMap secondaryMap preferredKeyOrder ([], [])
  let st2 := addRemaining primaryMap st1
  let st3 := addRemaining secondaryMap st2
  Node.mk Kind.mappingNode "" "" st3.1

/-- `config.K8sYamlManifestsPreferredKeyOrder` (src/unnamed/part_004,
lines 55-57): the preferred order for Kubernetes manifest keys. -/
def K8sYamlManifestsPreferredKeyOrder : List String :=
  ["apiVersion", "kind", "metadata", "namespace", "spec", "resources", "images", "patches"]

/-- `MergeMappingPreservingKeyOrder` as in the source: the policy is the
package-level constant `config.K8sYamlManifestsPreferredKeyOrder`. -/
def MergeMappingPreservingKeyOrder (ser : Node → Option String)
    (primaryMap secondaryMap : GoMap) : Node :=
  MergeMappingPreservingKeyOrderWith ser K8sYamlManifestsPreferredKeyOrder
    primaryMap secondaryMap

/-- `MergeRootDocumentNodes` (src/unnamed/part_002, lines 411-424): reject
(with an error) inputs that are not document nodes, then convert each
document's first child to a lookup and merge.  `none` models the Go
runtime panic from indexing `Content[0]` on an empty content slice.
The lookup lists inherit first-insertion order from the conversion, which
fixes one possible iteration order of the Go map; any other order is a
permutation of it (see the iteration-order lemmas below). -/
def MergeRootDocumentNodes (ser : Node → Option String)
    (docNode1 docNode2 : Node) : Option (Except String Node) :=
  if docNode1.kind ≠ Kind.documentNode ∨ docNode2.kind ≠ Kind.documentNode then
    some (Except.error "[ERROR] Expected both nodes to be DocumentNode")
  else
    match docNode1.content, docNode2.content with
    | root1 :: _, root2 :: _ =>
        let map1 := ConvertMappingNodeToMap root1
        let map2 := ConvertMappingNodeToMap root2
        some (Except.ok (Node.mk Kind.documentNode "" ""
          [MergeMappingPreservingKeyOrder ser map1 map2]))
    | _, _ => none

/-! ### Observation functions on merged mapping content -/

/-- Read the alternating key/value content of a mapping node back as an
entry list (the key is the `Value` field of the key node). -/
def contentEntries : List Node → List (String × Node)
  | keyNode :: valueNode :: rest => (keyNode.value, valueNode) :: contentEntries rest
  | _ => []

/-- The keys of alternating key/value mapping content, in order. -/
def contentKeys (content : List Node) : List String :=
  (contentEntries content).map Prod.fst

/-- The keys of the mapping produced by
`MergeMappingPreservingKeyOrderWith`, in output order. -/
def mergedKeys (ser : Node → Option String) (preferredKeyOrder : List String)
    (primaryMap secondaryMap : GoMap) : List String :=
  contentKeys (MergeMappingPreservingKeyOrderWith ser preferredKeyOrder
    primaryMap secondaryMap).content

/-! ### The array de-duplication rule, stated from the spec

`dedupBySerialization` follows the spec's description of the array
de-duplication rule: walk the items in order, keeping an item exactly when
its serialized form is not byte-identical to the serialized form of an
item already appended (`appended` accumulates those forms).  An item the
encoder fails on is skipped.  `dedupSeen` returns the accumulated
serialized forms themselves. -/

/-- The de-duplicated item list, per the spec's array rule. -/
def dedupBySerialization (ser : Node → Option String) :
    List Node → List String → List Node
  | [], _ => []
  | item :: rest, appended =>
      match ser item with
      | none => dedupBySerialization ser rest appended
      | some s =>
          if s ∈ appended then dedupBySerialization ser rest appended
          else item :: dedupBySerialization ser rest (s :: appended)

/-- The serialized forms accumulated by the array rule. -/
def dedupSeen (ser : Node → Option String) :
    List Node → List String → List String
  | [], appended => appended
  | item :: rest, appended =>
      match ser item with
      | none => dedupSeen ser rest appended
      | some s =>
          if s ∈ appended then dedupSeen ser rest appended
          else dedupSeen ser rest (s :: appended)

/-! ### Entry-level description of the mapping merge

The three loops of `MergeMappingPreservingKeyOrder` are described by
entry lists: `policyEntries` for the policy loop, `remainingEntries` for
each trailing loop, together with the final `seenKeys` contents. -/

/-- Write an entry list back as alternating key/value mapping content,
the way `addKeyValue` lays it out. -/
def entriesToContent : GoMap → List Node
  | [] => []
  | (key, value) :: rest =>
      Node.mk Kind.scalarNode "!!str" key [] :: value :: entriesToContent rest

/-- Whether a policy key is found in either map (and hence emitted and
marked seen by the policy loop). -/
def policyFound (primaryMap secondaryMap : GoMap) (key : String) : Bool :=
  (mapFind? primaryMap key).isSome || (mapFind? secondaryMap key).isSome

/-- The entries emitted by the policy loop, in order. -/
def policyEntries (ser : Node → Option String) (primaryMap secondaryMap : GoMap) :
    List String → GoMap
  | [] => []
  | key :: rest =>
      match mapFind? primaryMap key, mapFind? secondaryMap key with
      | some node1, some node2 =>
          (key, MergeValuesForKey ser key node1 node2)
            :: policyEntries ser primaryMap secondaryMap rest
      | some node1, none =>
          (key, node1) :: policyEntries ser primaryMap secondaryMap rest
      | none, some node2 =>
          (key, node2) :: policyEntries ser primaryMap secondaryMap rest
      | none, none => policyEntries ser primaryMap secondaryMap rest

/-- The entries emitted by one trailing loop of the merge, given the seen
set at loop entry. -/
def remainingEntries : GoMap → List String → GoMap
  | [], _ => []
  | (key, node) :: rest, seen =>
      if key ∈ seen then remainingEntries rest seen
      else (key, node) :: remainingEntries rest (key :: seen)

/-- The seen list after one trailing loop of the merge. -/
def remainingSeen : GoMap → List String → List String
  | [], seen => seen
  | (key, _) :: rest, seen =>
      if key ∈ seen then remainingSeen rest seen
      else remainingSeen rest (key :: seen)

/-! ### Heap-level embedding (for the frame property)

Go nodes are heap-allocated (`*yaml.Node`), and a node's children are
pointers.  To settle whether the merge mutates its inputs, the same
functions are embedded once more at the heap level: `HNode` is one heap
cell, a heap is a list of cells indexed by address, `&yaml.Node{...}`
appends a fresh cell, and the only in-place writes the code performs —
`append`s to the `Content` of the just-allocated output node inside the
`addKeyValue` and `appendIfNotSeen` closures — become `appendContent` on
that cell.  Reads of a dangling address return a default (Go would crash
there); the frame property concerns writes only.  The external encoder
becomes `serH : Heap → Addr → Option String`, a read-only function. -/

/-- A heap address (a `*yaml.Node` pointer). -/
abbrev Addr := Nat

/-- One heap cell: the fields of a `yaml.Node`, children as addresses. -/
structure HNode where
  kind : Kind
  tag : String
  value : String
  content : List Addr

/-- The heap: cell at address `a` is `h[a]?`. -/
abbrev Heap := List HNode

/-- `&yaml.Node{...}`: allocate a fresh cell, returning its address. -/
def allocNode (h : Heap) (node : HNode) : Addr × Heap :=
  (h.length, h ++ [node])

/-- `cell.Content = append(cell.Content, extra...)` at address `a`. -/
def appendContent (h : Heap) (a : Addr) (extra : List Addr) : Heap :=
  match h[a]? with
  | some node => h.set a { node with content := node.content ++ extra }
  | none => h

/-- Read the `Kind` field at an address. -/
def kindOf (h : Heap) (a : Addr) : Kind :=
  match h[a]? with
  | some node => node.kind
  | none => Kind.scalarNode

/-- Read the `Value` field at an address. -/
def valueOf (h : Heap) (a : Addr) : String :=
  match h[a]? with
  | some node => node.value
  | none => ""

/-- Read the `Content` field at an address. -/
def contentOf (h : Heap) (a : Addr) : List Addr :=
  match h[a]? with
  | some node => node.content
  | none => []

/-- Heap-level `map[string]*yaml.Node`. -/
abbrev GoMapH := List (String × Addr)

/-- Heap-level map indexing. -/
def mapFindH? : GoMapH → String → Option Addr
  | [], _ => none
  | (k, a) :: rest, key => if k = key then some a else mapFindH? rest key

/-- Heap-level map assignment. -/
def mapInsertH (m : GoMapH) (key : String) (a : Addr) : GoMapH :=
  if (mapFindH? m key).isSome then
    m.map (fun p => if p.1 = key then (key, a) else p)
  else
    m ++ [(key, a)]

/-- Heap-level loop body of `ConvertMappingNodeToMap` (pure reads). -/
def convertPairsH (h : Heap) : List Addr → GoMapH → GoMapH
  | [], acc => acc
  | [_], acc => acc
  | keyAddr :: valueAddr :: rest, acc =>
      convertPairsH h rest (mapInsertH acc (valueOf h keyAddr) valueAddr)

/-- Heap-level `ConvertMappingNodeToMap` (pure reads, no writes). -/
def convertMappingNodeToMapH (h : Heap) (mappingAddr : Addr) : GoMapH :=
  if kindOf h mappingAddr ≠ Kind.mappingNode then []
  else convertPairsH h (contentOf h mappingAddr) []

/-- Heap-level `appendIfNotSeen`: serialize the item; on failure return
unchanged; otherwise append the item's address to the merged sequence
cell unless its serialized form was seen. -/
def appendIfNotSeenH (serH : Heap → Addr → Option String) (h : Heap)
    (mergedAddr : Addr) (seen : List String) (item : Addr) : Heap × List String :=
  match serH h item with
  | none => (h, seen)
  | some s =>
      if s ∈ seen then (h, seen)
      else (appendContent h mergedAddr [item], s :: seen)

/-- Heap-level `MergeArraysUniquely`: allocate the merged sequence cell,
then run the two item loops, appending into that cell. -/
def mergeArraysUniquelyH (serH : Heap → Addr → Option String) (h : Heap)
    (array1 array2 : Addr) : Addr × Heap :=
  let alloc := allocNode h { kind := Kind.sequenceNode, tag := "", value := "", content := [] }
  let st1 := (contentOf alloc.2 array1).foldl
    (fun st item => appendIfNotSeenH serH st.1 alloc.1 st.2 item) (alloc.2, [])
  let st2 := (contentOf st1.1 array2).foldl
    (fun st item => appendIfNotSeenH serH st.1 alloc.1 st.2 item) st1
  (alloc.1, st2.1)

/-- Heap-level `MergeValuesForKey`. -/
def mergeValuesForKeyH (serH : Heap → Addr → Option String) (h : Heap)
    (key : String) (value1 value2 : Addr) : Addr × Heap :=
  if kindOf h value1 = Kind.sequenceNode ∧ kindOf h value2 = Kind.sequenceNode then
    mergeArraysUniquelyH serH h value1 value2
  else
    (value2, h)

/-- Heap-level `addKeyValue`: allocate a fresh key scalar cell and append
key and value addresses to the merged mapping cell. -/
def addKeyValueH (h : Heap) (mergedAddr : Addr) (seen : List String)
    (key : String) (value : Addr) : Heap × List String :=
  (appendContent
      (allocNode h { kind := Kind.scalarNode, tag := "!!str", value := key, content := [] }).2
      mergedAddr [(allocNode h { kind := Kind.scalarNode, tag := "!!str", value := key, content := [] }).1, value],
   key :: seen)

/-- Heap-level policy loop of `MergeMappingPreservingKeyOrder`. -/
def policyLoopH (serH : Heap → Addr → Option String) (mergedAddr : Addr)
    (primaryMap secondaryMap : GoMapH) :
    List String → Heap × List String → Heap × List String
  | [], st => st
  | key :: rest, st =>
      match mapFindH? primaryMap key, mapFindH? secondaryMap key with
      | some addr1, some addr2 =>
          policyLoopH serH mergedAddr primaryMap secondaryMap rest
            (addKeyValueH (mergeValuesForKeyH serH st.1 key addr1 addr2).2 mergedAddr
              st.2 key (mergeValuesForKeyH serH st.1 key addr1 addr2).1)
      | some addr1, none =>
          policyLoopH serH mergedAddr primaryMap secondaryMap rest
            (addKeyValueH st.1 mergedAddr st.2 key addr1)
      | none, some addr2 =>
          policyLoopH serH mergedAddr primaryMap secondaryMap rest
            (addKeyValueH st.1 mergedAddr st.2 key addr2)
      | none, none =>
          policyLoopH serH mergedAddr primaryMap secondaryMap rest st

/-- Heap-level trailing loops of `MergeMappingPreservingKeyOrder`. -/
def addRemainingH (mergedAddr : Addr) : GoMapH → Heap × List String → Heap × List String
  | [], st => st
  | (key, addr) :: rest, st =>
      addRemainingH mergedAddr rest
        (if key ∈ st.2 then st else addKeyValueH st.1 mergedAddr st.2 key addr)

/-- Heap-level `MergeMappingPreservingKeyOrder` body (policy as
parameter): allocate the merged mapping cell, run the three loops. -/
def mergeMappingPreservingKeyOrderWithH (serH : Heap → Addr → Option String)
    (preferredKeyOrder : List String) (primaryMap secondaryMap : GoMapH)
    (h : Heap) : Addr × Heap :=
  let alloc := allocNode h { kind := Kind.mappingNode, tag := "", value := "", content := [] }
  let st1 := policyLoopH serH alloc.1 primaryMap secondaryMap preferredKeyOrder (alloc.2, [])
  let st2 := addRemainingH alloc.1 primaryMap st1
  let st3 := addRemainingH alloc.1 secondaryMap st2
  (alloc.1, st3.1)

/-- Heap-level `MergeRootDocumentNodes`; `none` in the first component
models the runtime panic from `Content[0]` on an empty content slice. -/
def mergeRootDocumentNodesH (serH : Heap → Addr → Option String) (h : Heap)
    (docNode1 docNode2 : Addr) : Option (Except String Addr) × Heap :=
  if kindOf h docNode1 ≠ Kind.documentNode ∨ kindOf h docNode2 ≠ Kind.documentNode then
    (some (Except.error "[ERROR] Expected both nodes to be DocumentNode"), h)
  else
    match contentOf h docNode1, contentOf h docNode2 with
    | root1 :: _, root2 :: _ =>
        let merged := mergeMappingPreservingKeyOrderWithH serH
          K8sYamlManifestsPreferredKeyOrder
          (convertMappingNodeToMapH h root1) (convertMappingNodeToMapH h root2) h
        let docAlloc := allocNode merged.2
          { kind := Kind.documentNode, tag := "", value := "", content := [merged.1] }
        (some (Except.ok docAlloc.1), docAlloc.2)
    | _, _ => (none, h)

/-! ### Concrete stand-ins for the external encoder, and node shorthands

The yaml encoder is an external collaborator (spec section 6); the
following concrete instances are used in witnesses and counterexamples. -/

/-- A total concrete encoder: a node's serialized form is its `Value`. -/
def serByValue : Node → Option String :=
  fun node => some node.value

/-- A concrete encoder that fails on one node (value `unserializable`),
modelling an encoding failure of the external yaml encoder. -/
def serSkipsBad : Node → Option String :=
  fun node => if node.value = "unserializable" then none else some node.value

/-- A `!!str` scalar node. -/
def strScalar (value : String) : Node :=
  Node.mk Kind.scalarNode "!!str" value []

/-- A sequence node with the given items. -/
def seqOf (items : List Node) : Node :=
  Node.mk Kind.sequenceNode "" "" items

/-- `h1` extends `h0`: every cell of `h0` is unchanged in `h1`. -/
def HeapExtends (h0 h1 : Heap) : Prop :=
  h0.length ≤ h1.length ∧ ∀ a : Addr, a < h0.length → h1[a]? = h0[a]?


/-! ### Lemmas about the array merge -/

theorem foldl_appendIfNotSeen (ser : Node → Option String) (l : List Node) :
    ∀ (acc : List Node) (seen : List String),
      l.foldl (appendIfNotSeen ser) (acc, seen)
        = (acc ++ dedupBySerialization ser l seen, dedupSeen ser l seen) := by
  induction l with
  | nil => intro acc seen; simp [dedupBySerialization, dedupSeen]
  | cons item rest ih =>
      intro acc seen
      cases h : ser item with
      | none =>
          simp [appendIfNotSeen, dedupBySerialization, dedupSeen, h, ih]
      | some s =>
          by_cases hs : s ∈ seen
          · simp [appendIfNotSeen, dedupBySerialization, dedupSeen, h, hs, ih]
          · simp [appendIfNotSeen, dedupBySerialization, dedupSeen, h, hs, ih]

theorem dedupBySerialization_append (ser : Node → Option String) (l1 : List Node) :
    ∀ (l2 : List Node) (seen : List String),
      dedupBySerialization ser (l1 ++ l2) seen
        = dedupBySerialization ser l1 seen
            ++ dedupBySerialization ser l2 (dedupSeen ser l1 seen) := by
  induction l1 with
  | nil => intro l2 seen; simp [dedupBySerialization, dedupSeen]
  | cons item rest ih =>
      intro l2 seen
      cases h : ser item with
      | none => simp [dedupBySerialization, dedupSeen, h, ih]
      | some s =>
          by_cases hs : s ∈ seen
          · simp [dedupBySerialization, dedupSeen, h, hs, ih]
          · simp [dedupBySerialization, dedupSeen, h, hs, ih]

/-- The content of `MergeArraysUniquely` is exactly the spec's
de-duplication of the concatenated item lists (unconditionally). -/
theorem mergeArraysUniquely_content (ser : Node → Option String)
    (array1 array2 : Node) :
    (MergeArraysUniquely ser array1 array2).content
      = dedupBySerialization ser (array1.content ++ array2.content) [] := by
  simp [MergeArraysUniquely, foldl_appendIfNotSeen, dedupBySerialization_append,
    Node.content]

theorem mem_dedupSeen_of_mem (ser : Node → Option String) (l : List Node) :
    ∀ (seen : List String) (s : String), s ∈ seen → s ∈ dedupSeen ser l seen := by
  induction l with
  | nil => intro seen s hs; simpa [dedupSeen] using hs
  | cons item rest ih =>
      intro seen s hs
      cases h : ser item with
      | none => simpa [dedupSeen, h] using ih seen s hs
      | some s' =>
          by_cases hs' : s' ∈ seen
          · simpa [dedupSeen, h, hs'] using ih seen s hs
          · simpa [dedupSeen, h, hs'] using ih (s' :: seen) s (List.mem_cons_of_mem _ hs)

theorem ser_mem_dedupSeen (ser : Node → Option String) (l : List Node) :
    ∀ (seen : List String) (item : Node) (s : String),
      item ∈ l → ser item = some s → s ∈ dedupSeen ser l seen := by
  induction l with
  | nil => intro _ _ _ h; exact absurd h (List.not_mem_nil _)
  | cons hd rest ih =>
      intro seen item s hmem hser
      rcases List.mem_cons.mp hmem with heq | htail
      · subst heq
        by_cases hs : s ∈ seen
        · simpa [dedupSeen, hser, hs] using mem_dedupSeen_of_mem ser rest seen s hs
        · simpa [dedupSeen, hser, hs] using
            mem_dedupSeen_of_mem ser rest (s :: seen) s (List.mem_cons_self _ _)
      · cases h : ser hd with
        | none => simpa [dedupSeen, h] using ih seen item s htail hser
        | some s' =>
            by_cases hs' : s' ∈ seen
            · simpa [dedupSeen, h, hs'] using ih seen item s htail hser
            · simpa [dedupSeen, h, hs'] using ih (s' :: seen) item s htail hser

theorem dedupBySerialization_eq_nil (ser : Node → Option String) (l : List Node) :
    ∀ (seen : List String),
      (∀ item ∈ l, ∀ s, ser item = some s → s ∈ seen) →
      dedupBySerialization ser l seen = [] := by
  induction l with
  | nil => intro seen _; simp [dedupBySerialization]
  | cons item rest ih =>
      intro seen hall
      cases h : ser item with
      | none =>
          simpa [dedupBySerialization, h] using
            ih seen (fun i hi s hs => hall i (List.mem_cons_of_mem _ hi) s hs)
      | some s =>
          have hs : s ∈ seen := hall item (List.mem_cons_self _ _) s h
          simpa [dedupBySerialization, h, hs] using
            ih seen (fun i hi s' hs' => hall i (List.mem_cons_of_mem _ hi) s' hs')

theorem dedupBySerialization_self_seen (ser : Node → Option String)
    (l : List Node) (seen : List String) :
    dedupBySerialization ser l (dedupSeen ser l seen) = [] :=
  dedupBySerialization_eq_nil ser l (dedupSeen ser l seen)
    (fun item hi s hs => ser_mem_dedupSeen ser l seen item s hi hs)

theorem dedupBySerialization_sublist (ser : Node → Option String) (l : List Node) :
    ∀ (seen : List String), (dedupBySerialization ser l seen).Sublist l := by
  induction l with
  | nil => intro seen; simp [dedupBySerialization]
  | cons item rest ih =>
      intro seen
      cases h : ser item with
      | none => simpa [dedupBySerialization, h] using (ih seen).cons item
      | some s =>
          by_cases hs : s ∈ seen
          · simpa [dedupBySerialization, h, hs] using (ih seen).cons item
          · simpa [dedupBySerialization, h, hs] using (ih (s :: seen)).cons₂ item

/-- Every kept item has a serialized form, distinct from the forms already
appended, and the kept serialized forms are pairwise distinct. -/
theorem dedupBySerialization_nodup (ser : Node → Option String) (l : List Node) :
    ∀ (seen : List String),
      ((dedupBySerialization ser l seen).map ser).Nodup
      ∧ ∀ item ∈ dedupBySerialization ser l seen,
          ∃ s, ser item = some s ∧ s ∉ seen := by
  induction l with
  | nil => intro seen; simp [dedupBySerialization]
  | cons item rest ih =>
      intro seen
      cases h : ser item with
      | none => simpa [dedupBySerialization, h] using ih seen
      | some s =>
          by_cases hs : s ∈ seen
          · simpa [dedupBySerialization, h, hs] using ih seen
          · obtain ⟨hnd, hfresh⟩ := ih (s :: seen)
            refine ⟨?_, ?_⟩
            · simp only [dedupBySerialization, h, hs, if_neg, List.map_cons]
              refine List.Nodup.cons ?_ hnd
              intro hmem
              rcases List.mem_map.mp hmem with ⟨item', hitem', hser'⟩
              rcases hfresh item' hitem' with ⟨s', hs', hns'⟩
              rw [hs', h] at hser'
              have hss : s' = s := Option.some.inj hser'
              exact hns' (hss ▸ List.mem_cons_self _ _)
            · intro it hit
              simp only [dedupBySerialization, h, hs, if_neg] at hit
              rcases List.mem_cons.mp hit with heq | htail
              · exact ⟨s, heq ▸ h, hs⟩
              · rcases hfresh it htail with ⟨s', hs', hns'⟩
                exact ⟨s', hs', fun hmem => hns' (List.mem_cons_of_mem _ hmem)⟩

theorem dedupBySerialization_complete (ser : Node → Option String) (l : List Node) :
    ∀ (seen : List String) (item : Node) (s : String),
      item ∈ l → ser item = some s → s ∉ seen →
      ∃ item', item' ∈ dedupBySerialization ser l seen ∧ ser item' = some s := by
  induction l with
  | nil => intro _ _ _ h; exact absurd h (List.not_mem_nil _)
  | cons hd rest ih =>
      intro seen item s hmem hser hns
      rcases List.mem_cons.mp hmem with heq | htail
      · subst heq
        refine ⟨item, ?_, hser⟩
        simp [dedupBySerialization, hser, hns]
      · cases h : ser hd with
        | none =>
            rcases ih seen item s htail hser hns with ⟨item', hmem', hser'⟩
            exact ⟨item', by simpa [dedupBySerialization, h] using hmem', hser'⟩
        | some s' =>
            by_cases hs' : s' ∈ seen
            · rcases ih seen item s htail hser hns with ⟨item', hmem', hser'⟩
              exact ⟨item', by simpa [dedupBySerialization, h, hs'] using hmem', hser'⟩
            · by_cases hss : s = s'
              · subst hss
                refine ⟨hd, ?_, h⟩
                simp [dedupBySerialization, h, hs']
              · have : s ∉ s' :: seen := by
                  intro hc
                  rcases List.mem_cons.mp hc with hc | hc
                  · exact hss hc
                  · exact hns hc
                rcases ih (s' :: seen) item s htail hser this with ⟨item', hmem', hser'⟩
                refine ⟨item', ?_, hser'⟩
                simp only [dedupBySerialization, h, hs', if_neg]
                exact List.mem_cons_of_mem _ hmem'

@[simp] theorem mapKeys_nil : mapKeys ([] : GoMap) = [] := rfl

@[simp] theorem mapKeys_cons (k : String) (v : Node) (rest : GoMap) :
    mapKeys ((k, v) :: rest) = k :: mapKeys rest := rfl

theorem contentEntries_entriesToContent (es : GoMap) :
    contentEntries (entriesToContent es) = es := by
  induction es with
  | nil => simp [entriesToContent, contentEntries]
  | cons p rest ih => cases p; simp [entriesToContent, contentEntries, ih, Node.value]

theorem mapFind?_isSome_iff (m : GoMap) (key : String) :
    (mapFind? m key).isSome ↔ key ∈ mapKeys m := by
  induction m with
  | nil => simp [mapFind?]
  | cons p rest ih =>
      cases p with
      | mk k v =>
          rw [mapKeys_cons, List.mem_cons]
          by_cases hk : k = key
          · subst hk; simp [mapFind?]
          · rw [mapFind?, if_neg hk, ih]
            constructor
            · exact Or.inr
            · rintro (rfl | h)
              · exact absurd rfl hk
              · exact h

theorem policyLoop_spec (ser : Node → Option String) (primaryMap secondaryMap : GoMap)
    (preferredKeyOrder : List String) :
    ∀ st : MapState,
      policyLoop ser primaryMap secondaryMap preferredKeyOrder st
        = (st.1 ++ entriesToContent (policyEntries ser primaryMap secondaryMap preferredKeyOrder),
           (preferredKeyOrder.filter (policyFound primaryMap secondaryMap)).reverse ++ st.2) := by
  induction preferredKeyOrder with
  | nil => intro st; simp [policyLoop, policyEntries, entriesToContent]
  | cons key rest ih =>
      intro st
      cases h1 : mapFind? primaryMap key <;> cases h2 : mapFind? secondaryMap key <;>
        simp [policyLoop, policyEntries, entriesToContent, addKeyValue, policyFound,
          h1, h2, ih, List.filter_cons]

theorem addRemaining_spec (m : GoMap) :
    ∀ st : MapState,
      addRemaining m st
        = (st.1 ++ entriesToContent (remainingEntries m st.2), remainingSeen m st.2) := by
  induction m with
  | nil => intro st; simp [addRemaining, remainingEntries, remainingSeen, entriesToContent]
  | cons p rest ih =>
      intro st
      cases p with
      | mk key node =>
          by_cases hk : key ∈ st.2
          · simp [addRemaining, remainingEntries, remainingSeen, hk, ih]
          · simp [addRemaining, remainingEntries, remainingSeen, entriesToContent,
              addKeyValue, hk, ih]

/-- The content of the merged mapping node, as an entry list: the policy
entries, then the unseen primary entries, then the unseen secondary
entries. -/
theorem mergeMappingWith_content (ser : Node → Option String)
    (preferredKeyOrder : List String) (primaryMap secondaryMap : GoMap) :
    (MergeMappingPreservingKeyOrderWith ser preferredKeyOrder primaryMap secondaryMap).content
      = entriesToContent
          (policyEntries ser primaryMap secondaryMap preferredKeyOrder
            ++ remainingEntries primaryMap
                 ((preferredKeyOrder.filter (policyFound primaryMap secondaryMap)).reverse)
            ++ remainingEntries secondaryMap
                 (remainingSeen primaryMap
                   ((preferredKeyOrder.filter (policyFound primaryMap secondaryMap)).reverse))) := by
  have hets : ∀ es1 es2 : GoMap,
      entriesToContent (es1 ++ es2) = entriesToContent es1 ++ entriesToContent es2 := by
    intro es1 es2
    induction es1 with
    | nil => simp [entriesToContent]
    | cons p rest ih => cases p; simp [entriesToContent, ih]
  simp [MergeMappingPreservingKeyOrderWith, policyLoop_spec, addRemaining_spec,
    Node.content, hets]

theorem entriesToContent_append (es1 es2 : GoMap) :
    entriesToContent (es1 ++ es2) = entriesToContent es1 ++ entriesToContent es2 := by
  induction es1 with
  | nil => simp [entriesToContent]
  | cons p rest ih => cases p; simp [entriesToContent, ih]

/-- The keys of the policy-loop entries are the policy keys found in
either map, in policy order. -/
theorem policyEntries_keys (ser : Node → Option String)
    (primaryMap secondaryMap : GoMap) (preferredKeyOrder : List String) :
    mapKeys (policyEntries ser primaryMap secondaryMap preferredKeyOrder)
      = preferredKeyOrder.filter (policyFound primaryMap secondaryMap) := by
  induction preferredKeyOrder with
  | nil => simp [policyEntries, mapKeys]
  | cons key rest ih =>
      cases h1 : mapFind? primaryMap key <;> cases h2 : mapFind? secondaryMap key <;>
        simp [policyEntries, policyFound, h1, h2, List.filter_cons, ih]

theorem mem_remainingSeen (m : GoMap) :
    ∀ (seen : List String) (key : String),
      key ∈ remainingSeen m seen ↔ key ∈ seen ∨ key ∈ mapKeys m := by
  induction m with
  | nil => intro seen key; simp [remainingSeen, mapKeys]
  | cons p rest ih =>
      intro seen key
      cases p with
      | mk k v =>
          rw [mapKeys_cons, List.mem_cons]
          by_cases hk : k ∈ seen
          · rw [remainingSeen, if_pos hk, ih]
            constructor
            · rintro (h | h)
              · exact Or.inl h
              · exact Or.inr (Or.inr h)
            · rintro (h | rfl | h)
              · exact Or.inl h
              · exact Or.inl hk
              · exact Or.inr h
          · rw [remainingSeen, if_neg hk, ih]
            constructor
            · rintro (h | h)
              · rcases List.mem_cons.mp h with rfl | h'
                · exact Or.inr (Or.inl rfl)
                · exact Or.inl h'
              · exact Or.inr (Or.inr h)
            · rintro (h | rfl | h)
              · exact Or.inl (List.mem_cons_of_mem _ h)
              · exact Or.inl (List.mem_cons_self _ _)
              · exact Or.inr h

/-- A key is emitted by a trailing loop exactly when it is a key of the
ranged-over map that was not already seen at loop entry. -/
theorem mem_remainingEntries_keys (m : GoMap) :
    ∀ (seen : List String) (key : String),
      key ∈ mapKeys (remainingEntries m seen) ↔ key ∈ mapKeys m ∧ key ∉ seen := by
  induction m with
  | nil => intro seen key; simp [remainingEntries, mapKeys]
  | cons p rest ih =>
      intro seen key
      cases p with
      | mk k v =>
          by_cases hk : k ∈ seen
          · rw [remainingEntries, if_pos hk, ih, mapKeys_cons, List.mem_cons]
            constructor
            · rintro ⟨h1, h2⟩
              exact ⟨Or.inr h1, h2⟩
            · rintro ⟨rfl | h1, h2⟩
              · exact absurd hk h2
              · exact ⟨h1, h2⟩
          · rw [remainingEntries, if_neg hk]
            simp only [mapKeys_cons, List.mem_cons]
            rw [ih]
            constructor
            · rintro (rfl | ⟨h1, h2⟩)
              · exact ⟨Or.inl rfl, hk⟩
              · exact ⟨Or.inr h1, fun hc => h2 (List.mem_cons_of_mem _ hc)⟩
            · rintro ⟨rfl | h1, h2⟩
              · exact Or.inl rfl
              · by_cases hkk : key = k
                · exact Or.inl hkk
                · refine Or.inr ⟨h1, ?_⟩
                  intro hc
                  rcases List.mem_cons.mp hc with h | h
                  · exact hkk h
                  · exact h2 h

/-- The keys emitted by a trailing loop are pairwise distinct and disjoint
from the seen set at loop entry. -/
theorem remainingEntries_keys_nodup (m : GoMap) :
    ∀ seen : List String, (mapKeys (remainingEntries m seen)).Nodup := by
  induction m with
  | nil => intro seen; simp [remainingEntries, mapKeys]
  | cons p rest ih =>
      intro seen
      cases p with
      | mk k v =>
          by_cases hk : k ∈ seen
          · rw [remainingEntries, if_pos hk]; exact ih seen
          · rw [remainingEntries, if_neg hk, mapKeys_cons]
            refine List.Nodup.cons ?_ (ih (k :: seen))
            intro hc
            have := (mem_remainingEntries_keys rest (k :: seen) k).mp hc
            exact this.2 (List.mem_cons_self _ _)

theorem mapKeys_append (m1 m2 : GoMap) :
    mapKeys (m1 ++ m2) = mapKeys m1 ++ mapKeys m2 := by
  simp [mapKeys]

theorem policyFound_iff (primaryMap secondaryMap : GoMap) (key : String) :
    policyFound primaryMap secondaryMap key = true
      ↔ key ∈ mapKeys primaryMap ∨ key ∈ mapKeys secondaryMap := by
  simp [policyFound, mapFind?_isSome_iff]

/-- The key list of the merged mapping: the found policy keys in policy
order, then the unseen primary keys, then the unseen secondary keys. -/
theorem mergedKeys_eq (ser : Node → Option String) (P : List String) (A B : GoMap) :
    mergedKeys ser P A B
      = P.filter (policyFound A B)
        ++ mapKeys (remainingEntries A ((P.filter (policyFound A B)).reverse))
        ++ mapKeys (remainingEntries B
            (remainingSeen A ((P.filter (policyFound A B)).reverse))) := by
  unfold mergedKeys contentKeys
  rw [mergeMappingWith_content, contentEntries_entriesToContent]
  rw [show ∀ m : GoMap, m.map Prod.fst = mapKeys m from fun _ => rfl]
  rw [mapKeys_append, mapKeys_append, policyEntries_keys]

/-- A key is in the merged mapping exactly when it is a key of either
input map. -/
theorem mem_mergedKeys_iff (ser : Node → Option String) (P : List String)
    (A B : GoMap) (key : String) :
    key ∈ mergedKeys ser P A B ↔ key ∈ mapKeys A ∨ key ∈ mapKeys B := by
  rw [mergedKeys_eq]
  simp only [List.mem_append]
  constructor
  · rintro ((h | h) | h)
    · exact (policyFound_iff A B key).mp (List.mem_filter.mp h).2
    · exact Or.inl ((mem_remainingEntries_keys A _ key).mp h).1
    · exact Or.inr ((mem_remainingEntries_keys B _ key).mp h).1
  · intro h
    by_cases hf : key ∈ P.filter (policyFound A B)
    · exact Or.inl (Or.inl hf)
    · rcases h with hA | hB
      · refine Or.inl (Or.inr ((mem_remainingEntries_keys A _ key).mpr ⟨hA, ?_⟩))
        intro hc
        exact hf (List.mem_reverse.mp hc)
      · by_cases hA : key ∈ mapKeys A
        · refine Or.inl (Or.inr ((mem_remainingEntries_keys A _ key).mpr ⟨hA, ?_⟩))
          intro hc
          exact hf (List.mem_reverse.mp hc)
        · refine Or.inr ((mem_remainingEntries_keys B _ key).mpr ⟨hB, ?_⟩)
          intro hc
          rcases (mem_remainingSeen A _ key).mp hc with hc' | hc'
          · exact hf (List.mem_reverse.mp hc')
          · exact hA hc'

/-- For a duplicate-free policy the merged key list has no repetition. -/
theorem mergedKeys_nodup (ser : Node → Option String) (P : List String)
    (A B : GoMap) (hP : P.Nodup) : (mergedKeys ser P A B).Nodup := by
  rw [mergedKeys_eq]
  have hfil : (P.filter (policyFound A B)).Nodup := hP.filter _
  have hA := remainingEntries_keys_nodup A ((P.filter (policyFound A B)).reverse)
  have hB := remainingEntries_keys_nodup B
    (remainingSeen A ((P.filter (policyFound A B)).reverse))
  rw [List.nodup_append, List.nodup_append]
  refine ⟨⟨hfil, hA, ?_⟩, hB, ?_⟩
  · intro key hk hk'
    exact ((mem_remainingEntries_keys A _ key).mp hk').2 (List.mem_reverse.mpr hk)
  · intro key hk hk'
    have hns := ((mem_remainingEntries_keys B _ key).mp hk').2
    rcases List.mem_append.mp hk with h | h
    · exact hns ((mem_remainingSeen A _ key).mpr (Or.inl (List.mem_reverse.mpr h)))
    · exact hns ((mem_remainingSeen A _ key).mpr
        (Or.inr ((mem_remainingEntries_keys A _ key).mp h).1))

/-! ### Iteration-order lemmas

A Go map's iteration order is unspecified; two association lists that are
permutations of each other (with duplicate-free keys) model the same map
observed in two runs.  Lookups agree across such representations, and the
merge output is characterised up to the leftover-key order. -/

theorem mapFind?_perm {A A' : GoMap} (hA : A.Perm A') :
    (mapKeys A).Nodup → ∀ key, mapFind? A key = mapFind? A' key := by
  induction hA with
  | nil => intro _ _; rfl
  | cons p h ih =>
      intro hAk key
      cases p with
      | mk k v =>
          simp only [mapFind?]
          by_cases hk : k = key
          · rw [if_pos hk, if_pos hk]
          · rw [if_neg hk, if_neg hk]
            refine ih ?_ key
            simp only [mapKeys_cons, List.nodup_cons] at hAk
            exact hAk.2
  | swap x y l =>
      intro hAk key
      cases x with
      | mk kx vx =>
          cases y with
          | mk ky vy =>
              have hne : ky ≠ kx := by
                simp only [mapKeys_cons, List.nodup_cons, List.mem_cons] at hAk
                exact fun hc => hAk.1 (Or.inl hc)
              by_cases hy : ky = key
              · by_cases hx : kx = key
                · exact absurd (hy.trans hx.symm) hne
                · simp [mapFind?, hy, hx]
              · simp [mapFind?, hy]
  | trans h1 h2 ih1 ih2 =>
      intro hAk key
      have hmid := ((h1.map Prod.fst).nodup_iff).mp hAk
      rw [ih1 hAk key, ih2 hmid key]

theorem policyEntries_congr (ser : Node → Option String) {A A' B B' : GoMap}
    (hfA : ∀ key, mapFind? A key = mapFind? A' key)
    (hfB : ∀ key, mapFind? B key = mapFind? B' key) :
    ∀ P : List String, policyEntries ser A B P = policyEntries ser A' B' P := by
  intro P
  induction P with
  | nil => rfl
  | cons key rest ih => simp only [policyEntries, hfA key, hfB key, ih]

theorem policyFound_congr {A A' B B' : GoMap}
    (hfA : ∀ key, mapFind? A key = mapFind? A' key)
    (hfB : ∀ key, mapFind? B key = mapFind? B' key) (key : String) :
    policyFound A B key = policyFound A' B' key := by
  simp only [policyFound, hfA key, hfB key]

/-- On a map with duplicate-free keys, a trailing loop keeps exactly the
entries whose key is not in the seen set at loop entry. -/
theorem remainingEntries_eq_filter (m : GoMap) :
    ∀ seen : List String, (mapKeys m).Nodup →
      remainingEntries m seen = m.filter (fun p => decide (p.1 ∉ seen)) := by
  induction m with
  | nil => intro seen _; rfl
  | cons p rest ih =>
      intro seen hnd
      cases p with
      | mk k v =>
          simp only [mapKeys_cons, List.nodup_cons] at hnd
          by_cases hk : k ∈ seen
          · rw [remainingEntries, if_pos hk, List.filter_cons, ih seen hnd.2]
            simp [hk]
          · rw [remainingEntries, if_neg hk, List.filter_cons, ih (k :: seen) hnd.2]
            have harg : rest.filter (fun p => decide (p.1 ∉ k :: seen))
                = rest.filter (fun p => decide (p.1 ∉ seen)) := by
              refine List.filter_congr ?_
              intro q hq
              have hqk : q.1 ≠ k := by
                intro hc
                exact hnd.1 (hc ▸ List.mem_map.mpr ⟨q, hq, rfl⟩)
              refine decide_eq_decide.mpr ?_
              simp [List.mem_cons, hqk]
            rw [harg]
            simp [hk]

theorem remaining_primary_not_policy (P : List String) (A B : GoMap) (key : String)
    (h : key ∈ mapKeys (remainingEntries A ((P.filter (policyFound A B)).reverse))) :
    key ∉ P := by
  obtain ⟨hA, hns⟩ := (mem_remainingEntries_keys A _ key).mp h
  intro hkP
  refine hns (List.mem_reverse.mpr (List.mem_filter.mpr ⟨hkP, ?_⟩))
  exact (policyFound_iff A B key).mpr (Or.inl hA)

theorem remaining_secondary_not_policy (P : List String) (A B : GoMap) (key : String)
    (h : key ∈ mapKeys (remainingEntries B
      (remainingSeen A ((P.filter (policyFound A B)).reverse)))) :
    key ∉ P := by
  obtain ⟨hB, hns⟩ := (mem_remainingEntries_keys B _ key).mp h
  intro hkP
  refine hns ((mem_remainingSeen A _ key).mpr (Or.inl
    (List.mem_reverse.mpr (List.mem_filter.mpr ⟨hkP, ?_⟩))))
  exact (policyFound_iff A B key).mpr (Or.inr hB)

/-- Restricting the merged key list to policy keys leaves exactly the
found policy keys, in policy order. -/
theorem mergedKeys_filter_policy (ser : Node → Option String)
    (P : List String) (A B : GoMap) :
    (mergedKeys ser P A B).filter (fun key => decide (key ∈ P))
      = P.filter (policyFound A B) := by
  rw [mergedKeys_eq, List.filter_append, List.filter_append]
  have h1 : (P.filter (policyFound A B)).filter (fun key => decide (key ∈ P))
      = P.filter (policyFound A B) := by
    refine List.filter_eq_self.mpr ?_
    intro key hk
    exact decide_eq_true_eq.mpr (List.mem_filter.mp hk).1
  have h2 : (mapKeys (remainingEntries A
      ((P.filter (policyFound A B)).reverse))).filter (fun key => decide (key ∈ P))
      = [] := by
    refine List.filter_eq_nil_iff.mpr ?_
    intro key hk
    simpa using remaining_primary_not_policy P A B key hk
  have h3 : (mapKeys (remainingEntries B (remainingSeen A
      ((P.filter (policyFound A B)).reverse)))).filter (fun key => decide (key ∈ P))
      = [] := by
    refine List.filter_eq_nil_iff.mpr ?_
    intro key hk
    simpa using remaining_secondary_not_policy P A B key hk
  rw [h1, h2, h3, List.append_nil, List.append_nil]

/-- **C1 (amended)**: for root mappings `A`, `B` and a policy `P` with no
duplicate entries, the merged mapping's key set is the union of the key
sets of `A` and `B`, and no key appears more than once among its entries.
(The amendment restricts `P` to duplicate-free policies; the policy loop
does not consult `seenKeys`, so a duplicated policy key is emitted twice,
see the counterexample.) -/
theorem mergeMapping_keys_union_unique (ser : Node → Option String)
    (P : List String) (A B : GoMap) (hP : P.Nodup) :
    (∀ key, key ∈ mergedKeys ser P A B ↔ key ∈ mapKeys A ∨ key ∈ mapKeys B)
    ∧ (mergedKeys ser P A B).Nodup :=
  ⟨fun key => mem_mergedKeys_iff ser P A B key, mergedKeys_nodup ser P A B hP⟩

/-- Witness for C1 at the package's actual policy and two small maps. -/
theorem mergeMapping_keys_union_unique_witness :
    (∀ key, key ∈ mergedKeys serByValue K8sYamlManifestsPreferredKeyOrder
        [("kind", strScalar "Pod"), ("extra", strScalar "true")]
        [("kind", strScalar "Deployment")]
      ↔ key ∈ mapKeys [("kind", strScalar "Pod"), ("extra", strScalar "true")]
        ∨ key ∈ mapKeys [("kind", strScalar "Deployment")])
    ∧ (mergedKeys serByValue K8sYamlManifestsPreferredKeyOrder
        [("kind", strScalar "Pod"), ("extra", strScalar "true")]
        [("kind", strScalar "Deployment")]).Nodup :=
  mergeMapping_keys_union_unique serByValue K8sYamlManifestsPreferredKeyOrder
    [("kind", strScalar "Pod"), ("extra", strScalar "true")]
    [("kind", strScalar "Deployment")] (by decide)

/-- **C1 counterexample**: with the duplicated policy `["a", "a"]` and a
primary map holding key `a`, the key `a` is emitted twice, so the claim's
"no key appears more than once", quantified over every policy, fails. -/
theorem mergeMapping_dup_policy_counterexample :
    mergedKeys serByValue ["a", "a"] [("a", strScalar "1")] [] = ["a", "a"]
    ∧ ¬ (mergedKeys serByValue ["a", "a"] [("a", strScalar "1")] []).Nodup := by
  constructor
  · decide
  · decide

/-- **C2**: in the merged mapping, the keys that occur in the policy `P`
form an initial segment that is a subsequence of `P` (hence in `P`'s
relative order), and every key not occurring in `P` comes after all of
them. -/
theorem mergeMapping_policy_order (ser : Node → Option String)
    (P : List String) (A B : GoMap) :
    ∃ inPolicy afterPolicy,
      mergedKeys ser P A B = inPolicy ++ afterPolicy
      ∧ inPolicy.Sublist P
      ∧ ∀ key ∈ afterPolicy, key ∉ P := by
  refine ⟨P.filter (policyFound A B),
    mapKeys (remainingEntries A ((P.filter (policyFound A B)).reverse))
      ++ mapKeys (remainingEntries B
          (remainingSeen A ((P.filter (policyFound A B)).reverse))),
    by rw [mergedKeys_eq, List.append_assoc], List.filter_sublist P, ?_⟩
  intro key hk hkP
  rcases List.mem_append.mp hk with h | h
  · obtain ⟨hA, hns⟩ := (mem_remainingEntries_keys A _ key).mp h
    refine hns (List.mem_reverse.mpr (List.mem_filter.mpr ⟨hkP, ?_⟩))
    exact (policyFound_iff A B key).mpr (Or.inl hA)
  · obtain ⟨hB, hns⟩ := (mem_remainingEntries_keys B _ key).mp h
    refine hns ((mem_remainingSeen A _ key).mpr (Or.inl
      (List.mem_reverse.mpr (List.mem_filter.mpr ⟨hkP, ?_⟩))))
    exact (policyFound_iff A B key).mpr (Or.inr hB)

/-- **C3**: `MergeValuesForKey` merges two sequence values via
`MergeArraysUniquely`, and in every other combination (scalar/scalar,
mapping/mapping, mismatched kinds) returns the secondary value unchanged
— two mapping values are never merged recursively. -/
theorem mergeValuesForKey_cases (ser : Node → Option String) (key : String)
    (value1 value2 : Node) :
    (value1.kind = Kind.sequenceNode → value2.kind = Kind.sequenceNode →
      MergeValuesForKey ser key value1 value2 = MergeArraysUniquely ser value1 value2)
    ∧ (¬ (value1.kind = Kind.sequenceNode ∧ value2.kind = Kind.sequenceNode) →
      MergeValuesForKey ser key value1 value2 = value2) := by
  constructor
  · intro h1 h2
    simp [MergeValuesForKey, h1, h2]
  · intro h
    simp only [MergeValuesForKey, if_neg h]

/-- Witness for C3: two mapping values — the secondary mapping replaces
the primary one wholesale. -/
theorem mergeValuesForKey_cases_witness :
    MergeValuesForKey serByValue "spec"
      (Node.mk Kind.mappingNode "" "" [strScalar "containers", seqOf [strScalar "x"]])
      (Node.mk Kind.mappingNode "" "" [strScalar "containers", seqOf [strScalar "y"]])
      = Node.mk Kind.mappingNode "" "" [strScalar "containers", seqOf [strScalar "y"]] :=
  (mergeValuesForKey_cases serByValue "spec"
    (Node.mk Kind.mappingNode "" "" [strScalar "containers", seqOf [strScalar "x"]])
    (Node.mk Kind.mappingNode "" "" [strScalar "containers", seqOf [strScalar "y"]])).2
    (by decide)

/-- **C4**: `MergeArraysUniquely` builds its output by walking the primary
items then the secondary items in order and keeping an item exactly when
its serialized form is not byte-identical to that of an item already
appended (`dedupBySerialization` is that rule, stated from the spec);
items with different serialized forms are all retained. -/
theorem mergeArraysUniquely_dedup_spec (ser : Node → Option String)
    (array1 array2 : Node) :
    (MergeArraysUniquely ser array1 array2).content
      = dedupBySerialization ser (array1.content ++ array2.content) [] :=
  mergeArraysUniquely_content ser array1 array2

/-- **C5**: `MergeArraysUniquely (S, S)` contains exactly the elements of
`S` that are distinct by serialized form, each appearing once, in order of
first occurrence in `S`. -/
theorem mergeArraysUniquely_idem (ser : Node → Option String) (S : Node)
    (h : ∀ item ∈ S.content, (ser item).isSome) :
    (MergeArraysUniquely ser S S).content = dedupBySerialization ser S.content []
    ∧ ((MergeArraysUniquely ser S S).content).Sublist S.content
    ∧ (((MergeArraysUniquely ser S S).content).map ser).Nodup
    ∧ ∀ item ∈ S.content, ∃ item', item' ∈ (MergeArraysUniquely ser S S).content
        ∧ ser item' = ser item := by
  have hc : (MergeArraysUniquely ser S S).content
      = dedupBySerialization ser S.content [] := by
    rw [mergeArraysUniquely_content, dedupBySerialization_append,
      dedupBySerialization_self_seen, List.append_nil]
  refine ⟨hc, ?_, ?_, ?_⟩
  · rw [hc]
    exact dedupBySerialization_sublist ser S.content []
  · rw [hc]
    exact (dedupBySerialization_nodup ser S.content []).1
  · intro item hitem
    obtain ⟨s, hs⟩ := Option.isSome_iff_exists.mp (h item hitem)
    obtain ⟨item', hmem', hser'⟩ :=
      dedupBySerialization_complete ser S.content [] item s hitem hs
        (List.not_mem_nil s)
    exact ⟨item', by rw [hc]; exact hmem', by rw [hser', hs]⟩

/-- Witness for C5 on a sequence with a duplicated element. -/
theorem mergeArraysUniquely_idem_witness :
    (MergeArraysUniquely serByValue
        (seqOf [strScalar "x", strScalar "y", strScalar "x"])
        (seqOf [strScalar "x", strScalar "y", strScalar "x"])).content
      = dedupBySerialization serByValue
          (seqOf [strScalar "x", strScalar "y", strScalar "x"]).content []
    ∧ ((MergeArraysUniquely serByValue
        (seqOf [strScalar "x", strScalar "y", strScalar "x"])
        (seqOf [strScalar "x", strScalar "y", strScalar "x"])).content).Sublist
          (seqOf [strScalar "x", strScalar "y", strScalar "x"]).content
    ∧ (((MergeArraysUniquely serByValue
        (seqOf [strScalar "x", strScalar "y", strScalar "x"])
        (seqOf [strScalar "x", strScalar "y", strScalar "x"])).content).map
          serByValue).Nodup
    ∧ ∀ item ∈ (seqOf [strScalar "x", strScalar "y", strScalar "x"]).content,
        ∃ item', item' ∈ (MergeArraysUniquely serByValue
            (seqOf [strScalar "x", strScalar "y", strScalar "x"])
            (seqOf [strScalar "x", strScalar "y", strScalar "x"])).content
          ∧ serByValue item' = serByValue item :=
  mergeArraysUniquely_idem serByValue
    (seqOf [strScalar "x", strScalar "y", strScalar "x"]) (by decide)

/-- **C7 (amended)**: an item the encoder fails on is logged and skipped;
the merge continues and returns a sequence without that item, surfacing no
error (the function has no error channel at all). -/
theorem mergeArraysUniquely_drops_unserializable (ser : Node → Option String)
    (array1 array2 item : Node) (h : ser item = none) :
    item ∉ (MergeArraysUniquely ser array1 array2).content := by
  rw [mergeArraysUniquely_content]
  intro hmem
  obtain ⟨s, hs, _⟩ :=
    (dedupBySerialization_nodup ser (array1.content ++ array2.content) []).2 item hmem
  rw [h] at hs
  exact Option.noConfusion hs

/-- Witness for the amended C7: the unserializable item is dropped. -/
theorem mergeArraysUniquely_drops_unserializable_witness :
    serSkipsBad (strScalar "unserializable") = none
    ∧ strScalar "unserializable" ∉
        (MergeArraysUniquely serSkipsBad
          (seqOf [strScalar "unserializable", strScalar "x"])
          (seqOf [strScalar "y"])).content :=
  ⟨rfl,
   mergeArraysUniquely_drops_unserializable serSkipsBad
    (seqOf [strScalar "unserializable", strScalar "x"]) (seqOf [strScalar "y"])
    (strScalar "unserializable") rfl⟩

/-- **C7 counterexample**: with an encoder that fails on one item of the
primary `resources` sequence, the whole merge still returns a successful
merged document in which that item was silently dropped — no
`EncodeError` is surfaced and the merge does not abort. -/
theorem mergeRoot_encodeFailure_counterexample :
    MergeRootDocumentNodes serSkipsBad
      (Node.mk Kind.documentNode "" ""
        [Node.mk Kind.mappingNode "" ""
          [strScalar "resources", seqOf [strScalar "unserializable", strScalar "x"]]])
      (Node.mk Kind.documentNode "" ""
        [Node.mk Kind.mappingNode "" "" [strScalar "resources", seqOf [strScalar "y"]]])
      = some (Except.ok (Node.mk Kind.documentNode "" ""
          [Node.mk Kind.mappingNode "" ""
            [Node.mk Kind.scalarNode "!!str" "resources" [],
             seqOf [strScalar "x", strScalar "y"]]])) := rfl

/-- **C6 counterexample**: a document whose root is a bare scalar is not
rejected: the merge succeeds, treating the scalar root as an empty
mapping, and returns a merged document built from the other input alone.
-/
theorem mergeRoot_nonMapping_counterexample :
    MergeRootDocumentNodes serByValue
      (Node.mk Kind.documentNode "" "" [strScalar "hello"])
      (Node.mk Kind.documentNode "" ""
        [Node.mk Kind.mappingNode "" "" [strScalar "a", strScalar "x"]])
      = some (Except.ok (Node.mk Kind.documentNode "" ""
          [Node.mk Kind.mappingNode "" ""
            [Node.mk Kind.scalarNode "!!str" "a" [], strScalar "x"]])) := rfl

/-- **C6 (amended)**: a non-mapping root does not fail the merge: the only
rejected inputs are non-`DocumentNode` wrappers.  A root of any other kind
is converted to the empty lookup, and the merge returns a merged document
(here stated for a non-mapping primary root; the conversion lemma is
position-independent). -/
theorem mergeRoot_nonMapping_treated_empty (ser : Node → Option String)
    (root1 root2 : Node) (t1 v1 t2 v2 : String) (c1 c2 : List Node)
    (h1 : root1.kind ≠ Kind.mappingNode) :
    ConvertMappingNodeToMap root1 = []
    ∧ MergeRootDocumentNodes ser
        (Node.mk Kind.documentNode t1 v1 (root1 :: c1))
        (Node.mk Kind.documentNode t2 v2 (root2 :: c2))
      = some (Except.ok (Node.mk Kind.documentNode "" ""
          [MergeMappingPreservingKeyOrder ser [] (ConvertMappingNodeToMap root2)])) := by
  have hc : ConvertMappingNodeToMap root1 = [] := by
    unfold ConvertMappingNodeToMap
    rw [if_pos h1]
  refine ⟨hc, ?_⟩
  simp only [MergeRootDocumentNodes, Node.kind, Node.content, hc]
  simp

/-- Witness for the amended C6: scalar primary root, mapping secondary. -/
theorem mergeRoot_nonMapping_treated_empty_witness :
    ConvertMappingNodeToMap (strScalar "hello") = []
    ∧ MergeRootDocumentNodes serByValue
        (Node.mk Kind.documentNode "" "" [strScalar "hello"])
        (Node.mk Kind.documentNode "" ""
          [Node.mk Kind.mappingNode "" "" [strScalar "a", strScalar "x"]])
      = some (Except.ok (Node.mk Kind.documentNode "" ""
          [MergeMappingPreservingKeyOrder serByValue []
            (ConvertMappingNodeToMap
              (Node.mk Kind.mappingNode "" "" [strScalar "a", strScalar "x"]))])) :=
  mergeRoot_nonMapping_treated_empty serByValue (strScalar "hello")
    (Node.mk Kind.mappingNode "" "" [strScalar "a", strScalar "x"])
    "" "" "" "" [] [] (by decide)

/-- The loop of `ConvertMappingNodeToMap` on odd-length content equals the
loop on the content without its last element. -/
theorem convertPairs_odd :
    ∀ (content : List Node) (acc : GoMap), content.length % 2 = 1 →
      convertPairs content acc = convertPairs content.dropLast acc
  | [], _, h => by simp at h
  | [_], _, _ => by simp [convertPairs]
  | keyNode :: valueNode :: rest, acc, h => by
      have hr : rest.length % 2 = 1 := by
        simp only [List.length_cons] at h
        omega
      have hne : rest ≠ [] := by
        intro hc
        rw [hc] at hr
        simp at hr
      rw [convertPairs, convertPairs_odd rest _ hr]
      have hd : (keyNode :: valueNode :: rest).dropLast
          = keyNode :: valueNode :: rest.dropLast := by
        simp [List.dropLast_cons₂, List.dropLast_cons_of_ne_nil, hne]
      rw [hd, convertPairs]

/-- **C10**: on a mapping node whose content has an odd number of nodes,
`ConvertMappingNodeToMap` does not fail: it returns the lookup built from
the complete key/value pairs, silently dropping the final unpaired key
(the same lookup as for the content with its last node removed). -/
theorem convertMappingNodeToMap_oddContent (mappingNode : Node)
    (h : mappingNode.content.length % 2 = 1) :
    ConvertMappingNodeToMap mappingNode
      = ConvertMappingNodeToMap
          (Node.mk mappingNode.kind mappingNode.tag mappingNode.value
            mappingNode.content.dropLast) := by
  by_cases hkind : mappingNode.kind ≠ Kind.mappingNode
  · unfold ConvertMappingNodeToMap
    rw [if_pos hkind, if_pos (by simpa [Node.kind] using hkind)]
  · unfold ConvertMappingNodeToMap
    rw [if_neg hkind, if_neg (by simpa [Node.kind] using hkind)]
    simp only [Node.content]
    exact convertPairs_odd mappingNode.content [] h

/-- Witness for C10: a mapping with a trailing unpaired key `k2`. -/
theorem convertMappingNodeToMap_oddContent_witness :
    ConvertMappingNodeToMap
      (Node.mk Kind.mappingNode "" "" [strScalar "k1", strScalar "v1", strScalar "k2"])
      = ConvertMappingNodeToMap
          (Node.mk
            (Node.mk Kind.mappingNode "" ""
              [strScalar "k1", strScalar "v1", strScalar "k2"]).kind
            (Node.mk Kind.mappingNode "" ""
              [strScalar "k1", strScalar "v1", strScalar "k2"]).tag
            (Node.mk Kind.mappingNode "" ""
              [strScalar "k1", strScalar "v1", strScalar "k2"]).value
            (Node.mk Kind.mappingNode "" ""
              [strScalar "k1", strScalar "v1", strScalar "k2"]).content.dropLast) :=
  convertMappingNodeToMap_oddContent
    (Node.mk Kind.mappingNode "" "" [strScalar "k1", strScalar "v1", strScalar "k2"])
    (by decide)

/-- **C8 counterexample**: the merge output depends on the iteration
order of the key-to-node lookup.  The two association lists below have the
same (duplicate-free) keys and values — they model the same Go map
observed in two runs — yet merging them with the package's actual policy
produces different outputs (keys `x, y` versus `y, x`), so two runs need
not produce an identical key order for keys not listed in the policy. -/
theorem mergeMapping_iterationOrder_counterexample :
    ([("y", strScalar "2"), ("x", strScalar "1")] : GoMap).Perm
      [("x", strScalar "1"), ("y", strScalar "2")]
    ∧ (mapKeys [("x", strScalar "1"), ("y", strScalar "2")]).Nodup
    ∧ MergeMappingPreservingKeyOrder serByValue
        [("x", strScalar "1"), ("y", strScalar "2")] []
      ≠ MergeMappingPreservingKeyOrder serByValue
        [("y", strScalar "2"), ("x", strScalar "1")] [] := by
  refine ⟨List.Perm.swap _ _ _, by decide, ?_⟩
  intro h
  have h2 := congrArg (fun node => contentKeys node.content) h
  exact absurd h2 (by decide)

/-- **C8 (amended)**: determinism holds up to the lookup iteration order.
For fixed underlying maps (association lists equal up to permutation,
keys duplicate-free) and a fixed policy, all runs agree exactly on the
policy-loop entries (same keys and same merged values), agree on the
restriction of the output key list to policy keys, and produce the same
output entries up to order; only the relative order of keys not in the
policy may differ between runs. -/
theorem mergeMapping_iterationOrder_invariance (ser : Node → Option String)
    (P : List String) (A A' B B' : GoMap) (hA : A.Perm A') (hB : B.Perm B')
    (hAk : (mapKeys A).Nodup) (hBk : (mapKeys B).Nodup) :
    policyEntries ser A B P = policyEntries ser A' B' P
    ∧ (contentEntries (MergeMappingPreservingKeyOrderWith ser P A B).content).Perm
        (contentEntries (MergeMappingPreservingKeyOrderWith ser P A' B').content)
    ∧ (mergedKeys ser P A B).filter (fun key => decide (key ∈ P))
        = (mergedKeys ser P A' B').filter (fun key => decide (key ∈ P)) := by
  have hfA := mapFind?_perm hA hAk
  have hfB := mapFind?_perm hB hBk
  have hA'k : (mapKeys A').Nodup := ((hA.map Prod.fst).nodup_iff).mp hAk
  have hB'k : (mapKeys B').Nodup := ((hB.map Prod.fst).nodup_iff).mp hBk
  have he1 : policyEntries ser A B P = policyEntries ser A' B' P :=
    policyEntries_congr ser hfA hfB P
  have hfilter : P.filter (policyFound A B) = P.filter (policyFound A' B') :=
    List.filter_congr (fun key _ => policyFound_congr hfA hfB key)
  refine ⟨he1, ?_, ?_⟩
  · rw [mergeMappingWith_content, mergeMappingWith_content,
      contentEntries_entriesToContent, contentEntries_entriesToContent,
      ← he1, ← hfilter]
    have he2 : (remainingEntries A ((P.filter (policyFound A B)).reverse)).Perm
        (remainingEntries A' ((P.filter (policyFound A B)).reverse)) := by
      rw [remainingEntries_eq_filter A _ hAk, remainingEntries_eq_filter A' _ hA'k]
      exact hA.filter _
    have hs2 : ∀ key,
        key ∈ remainingSeen A ((P.filter (policyFound A B)).reverse)
          ↔ key ∈ remainingSeen A' ((P.filter (policyFound A B)).reverse) := by
      intro key
      rw [mem_remainingSeen, mem_remainingSeen]
      have hmemA := (hA.map Prod.fst).mem_iff (a := key)
      constructor
      · rintro (h | h)
        · exact Or.inl h
        · exact Or.inr (hmemA.mp h)
      · rintro (h | h)
        · exact Or.inl h
        · exact Or.inr (hmemA.mpr h)
    have he3 : (remainingEntries B
        (remainingSeen A ((P.filter (policyFound A B)).reverse))).Perm
        (remainingEntries B'
          (remainingSeen A' ((P.filter (policyFound A B)).reverse))) := by
      rw [remainingEntries_eq_filter B _ hBk, remainingEntries_eq_filter B' _ hB'k]
      have hq : B'.filter (fun p => decide
          (p.1 ∉ remainingSeen A' ((P.filter (policyFound A B)).reverse)))
          = B'.filter (fun p => decide
            (p.1 ∉ remainingSeen A ((P.filter (policyFound A B)).reverse))) := by
        refine List.filter_congr ?_
        intro q _
        exact decide_eq_decide.mpr (not_congr (hs2 q.1)).symm
      rw [hq]
      exact hB.filter _
    exact ((List.Perm.refl _).append he2).append he3
  · rw [mergedKeys_filter_policy, mergedKeys_filter_policy, hfilter]

/-- Witness for the amended C8 at two permuted two-entry maps. -/
theorem mergeMapping_iterationOrder_invariance_witness :
    policyEntries serByValue [("x", strScalar "1"), ("y", strScalar "2")] []
        K8sYamlManifestsPreferredKeyOrder
      = policyEntries serByValue [("y", strScalar "2"), ("x", strScalar "1")] []
          K8sYamlManifestsPreferredKeyOrder
    ∧ (contentEntries (MergeMappingPreservingKeyOrderWith serByValue
        K8sYamlManifestsPreferredKeyOrder
        [("x", strScalar "1"), ("y", strScalar "2")] []).content).Perm
        (contentEntries (MergeMappingPreservingKeyOrderWith serByValue
          K8sYamlManifestsPreferredKeyOrder
          [("y", strScalar "2"), ("x", strScalar "1")] []).content)
    ∧ (mergedKeys serByValue K8sYamlManifestsPreferredKeyOrder
        [("x", strScalar "1"), ("y", strScalar "2")] []).filter
          (fun key => decide (key ∈ K8sYamlManifestsPreferredKeyOrder))
        = (mergedKeys serByValue K8sYamlManifestsPreferredKeyOrder
            [("y", strScalar "2"), ("x", strScalar "1")] []).filter
              (fun key => decide (key ∈ K8sYamlManifestsPreferredKeyOrder)) :=
  mergeMapping_iterationOrder_invariance serByValue K8sYamlManifestsPreferredKeyOrder
    [("x", strScalar "1"), ("y", strScalar "2")]
    [("y", strScalar "2"), ("x", strScalar "1")] [] []
    (List.Perm.swap _ _ _) (List.Perm.refl _) (by decide) (by decide)

/-! ### Frame lemmas for the heap-level merge -/

theorem heapExtends_refl (h : Heap) : HeapExtends h h :=
  ⟨le_refl _, fun _ _ => rfl⟩

theorem heapExtends_trans {h0 h1 h2 : Heap}
    (e1 : HeapExtends h0 h1) (e2 : HeapExtends h1 h2) : HeapExtends h0 h2 :=
  ⟨le_trans e1.1 e2.1,
   fun a ha => (e2.2 a (lt_of_lt_of_le ha e1.1)).trans (e1.2 a ha)⟩

theorem heapExtends_alloc (h : Heap) (node : HNode) :
    HeapExtends h (allocNode h node).2 := by
  refine ⟨by simp [allocNode], ?_⟩
  intro a ha
  exact List.getElem?_append_left ha

theorem heapExtends_appendContent {h0 : Heap} (h : Heap) (a : Addr)
    (extra : List Addr) (he : HeapExtends h0 h) (ha : h0.length ≤ a) :
    HeapExtends h0 (appendContent h a extra) := by
  unfold appendContent
  cases hcell : h[a]? with
  | none => exact he
  | some node =>
      refine ⟨by simpa using he.1, ?_⟩
      intro i hi
      have hne : a ≠ i := fun heq => absurd hi (not_lt.mpr (heq ▸ ha))
      rw [List.getElem?_set_ne hne]
      exact he.2 i hi

theorem heapExtends_appendIfNotSeenH {h0 : Heap}
    (serH : Heap → Addr → Option String) (h : Heap) (mergedAddr : Addr)
    (seen : List String) (item : Addr)
    (he : HeapExtends h0 h) (ha : h0.length ≤ mergedAddr) :
    HeapExtends h0 (appendIfNotSeenH serH h mergedAddr seen item).1 := by
  unfold appendIfNotSeenH
  cases serH h item with
  | none => exact he
  | some s =>
      by_cases hs : s ∈ seen
      · simpa [hs] using he
      · simpa [hs] using heapExtends_appendContent h mergedAddr [item] he ha

theorem heapExtends_arrLoop {h0 : Heap} (serH : Heap → Addr → Option String)
    (mergedAddr : Addr) (items : List Addr) (ha : h0.length ≤ mergedAddr) :
    ∀ st : Heap × List String, HeapExtends h0 st.1 →
      HeapExtends h0 (items.foldl
        (fun st item => appendIfNotSeenH serH st.1 mergedAddr st.2 item) st).1 := by
  induction items with
  | nil => intro st he; exact he
  | cons item rest ih =>
      intro st he
      simp only [List.foldl_cons]
      exact ih _ (heapExtends_appendIfNotSeenH serH st.1 mergedAddr st.2 item he ha)

theorem mergeArraysUniquelyH_frame (serH : Heap → Addr → Option String)
    (h : Heap) (array1 array2 : Addr) :
    HeapExtends h (mergeArraysUniquelyH serH h array1 array2).2
    ∧ (mergeArraysUniquelyH serH h array1 array2).1 = h.length := by
  unfold mergeArraysUniquelyH
  refine ⟨?_, rfl⟩
  refine heapExtends_arrLoop serH _ _ (le_of_eq rfl) _ ?_
  refine heapExtends_arrLoop serH _ _ (le_of_eq rfl) _ ?_
  exact heapExtends_alloc h _

theorem mergeValuesForKeyH_frame (serH : Heap → Addr → Option String)
    (h : Heap) (key : String) (value1 value2 : Addr) :
    HeapExtends h (mergeValuesForKeyH serH h key value1 value2).2 := by
  unfold mergeValuesForKeyH
  by_cases hk : kindOf h value1 = Kind.sequenceNode ∧ kindOf h value2 = Kind.sequenceNode
  · rw [if_pos hk]
    exact (mergeArraysUniquelyH_frame serH h value1 value2).1
  · rw [if_neg hk]
    exact heapExtends_refl h

theorem addKeyValueH_frame {h0 : Heap} (h : Heap) (mergedAddr : Addr)
    (seen : List String) (key : String) (value : Addr)
    (he : HeapExtends h0 h) (ha : h0.length ≤ mergedAddr) :
    HeapExtends h0 (addKeyValueH h mergedAddr seen key value).1 := by
  unfold addKeyValueH
  exact heapExtends_appendContent _ mergedAddr _
    (heapExtends_trans he (heapExtends_alloc h _)) ha

theorem policyLoopH_frame {h0 : Heap} (serH : Heap → Addr → Option String)
    (mergedAddr : Addr) (primaryMap secondaryMap : GoMapH)
    (ha : h0.length ≤ mergedAddr) :
    ∀ (P : List String) (st : Heap × List String), HeapExtends h0 st.1 →
      HeapExtends h0 (policyLoopH serH mergedAddr primaryMap secondaryMap P st).1 := by
  intro P
  induction P with
  | nil => intro st he; exact he
  | cons key rest ih =>
      intro st he
      cases h1 : mapFindH? primaryMap key <;> cases h2 : mapFindH? secondaryMap key <;>
        simp only [policyLoopH, h1, h2]
      · exact ih st he
      · exact ih _ (addKeyValueH_frame st.1 mergedAddr st.2 key _ he ha)
      · exact ih _ (addKeyValueH_frame st.1 mergedAddr st.2 key _ he ha)
      · refine ih _ (addKeyValueH_frame _ mergedAddr st.2 key _ ?_ ha)
        exact heapExtends_trans he (mergeValuesForKeyH_frame serH st.1 key _ _)

theorem addRemainingH_frame {h0 : Heap} (mergedAddr : Addr)
    (ha : h0.length ≤ mergedAddr) :
    ∀ (m : GoMapH) (st : Heap × List String), HeapExtends h0 st.1 →
      HeapExtends h0 (addRemainingH mergedAddr m st).1 := by
  intro m
  induction m with
  | nil => intro st he; exact he
  | cons p rest ih =>
      intro st he
      cases p with
      | mk key addr =>
          by_cases hk : key ∈ st.2
          · simpa only [addRemainingH, if_pos hk] using ih st he
          · simp only [addRemainingH, if_neg hk]
            exact ih _ (addKeyValueH_frame st.1 mergedAddr st.2 key addr he ha)

theorem mergeMappingWithH_frame (serH : Heap → Addr → Option String)
    (preferredKeyOrder : List String) (primaryMap secondaryMap : GoMapH) (h : Heap) :
    HeapExtends h (mergeMappingPreservingKeyOrderWithH serH preferredKeyOrder
        primaryMap secondaryMap h).2
    ∧ (mergeMappingPreservingKeyOrderWithH serH preferredKeyOrder
        primaryMap secondaryMap h).1 = h.length := by
  unfold mergeMappingPreservingKeyOrderWithH
  refine ⟨?_, rfl⟩
  refine addRemainingH_frame _ (le_of_eq rfl) _ _ ?_
  refine addRemainingH_frame _ (le_of_eq rfl) _ _ ?_
  refine policyLoopH_frame serH _ _ _ (le_of_eq rfl) _ _ ?_
  exact heapExtends_alloc h _

/-- **C9**: the merge never writes to a pre-existing heap cell — after
`MergeRootDocumentNodes` returns, every node of both input documents
holds the same kind, tag, value and children as before the call — and a
successfully merged document lives at a freshly allocated address.  (The
output's key and container cells are new; leaf value cells are shared
with the inputs, unmodified.) -/
theorem mergeRootDocumentNodesH_frame (serH : Heap → Addr → Option String)
    (h : Heap) (docNode1 docNode2 : Addr) :
    (∀ a : Addr, a < h.length →
      (mergeRootDocumentNodesH serH h docNode1 docNode2).2[a]? = h[a]?)
    ∧ (∀ addr : Addr,
        (mergeRootDocumentNodesH serH h docNode1 docNode2).1
          = some (Except.ok addr) → h.length ≤ addr) := by
  unfold mergeRootDocumentNodesH
  by_cases hk : kindOf h docNode1 ≠ Kind.documentNode
      ∨ kindOf h docNode2 ≠ Kind.documentNode
  · rw [if_pos hk]
    exact ⟨fun _ _ => rfl, fun addr hc => absurd hc (by simp)⟩
  · rw [if_neg hk]
    cases hc1 : contentOf h docNode1 with
    | nil => exact ⟨fun _ _ => rfl, fun addr hc => absurd hc (by simp)⟩
    | cons root1 rest1 =>
        cases hc2 : contentOf h docNode2 with
        | nil => exact ⟨fun _ _ => rfl, fun addr hc => absurd hc (by simp)⟩
        | cons root2 rest2 =>
            have hframe := (mergeMappingWithH_frame serH
              K8sYamlManifestsPreferredKeyOrder
              (convertMappingNodeToMapH h root1)
              (convertMappingNodeToMapH h root2) h).1
            have hdoc := heapExtends_trans hframe
              (heapExtends_alloc (mergeMappingPreservingKeyOrderWithH serH
                K8sYamlManifestsPreferredKeyOrder
                (convertMappingNodeToMapH h root1)
                (convertMappingNodeToMapH h root2) h).2
                { kind := Kind.documentNode, tag := "", value := "",
                  content := [(mergeMappingPreservingKeyOrderWithH serH
                    K8sYamlManifestsPreferredKeyOrder
                    (convertMappingNodeToMapH h root1)
                    (convertMappingNodeToMapH h root2) h).1] })
            refine ⟨fun a ha => hdoc.2 a ha, ?_⟩
            intro addr hc
            have haddr : addr = (mergeMappingPreservingKeyOrderWithH serH
                K8sYamlManifestsPreferredKeyOrder
                (convertMappingNodeToMapH h root1)
                (convertMappingNodeToMapH h root2) h).2.length := by
              simpa [allocNode] using
                (Except.ok.inj (Option.some.inj hc)).symm
            rw [haddr]
            exact hframe.1

end PiresCli
